import Mathlib

/-!
Verification of the CubeSter mesh-generation core (cubester.py).

The pipeline's data model: a `Grid` is rows of columns of values, a `Field`
is a list of `Grid` layers.  Heights and colors are modelled over `ℚ`
(Python floats, treated as exact arithmetic).  The in-place list mutations
of the Python code are modelled functionally: each transform rebuilds the
field over exactly the index ranges the Python loops iterate, so on
rectangular fields (the data-model invariant) the result coincides with
the mutated Python structure.
-/

namespace CubeSter

abbrev Grid (α : Type) := List (List α)

abbrev Field (α : Type) := List (Grid α)

/-- Access cell `(layer l, row r, column c)` of a field, with default `d`
(Python indexing `field[l][r][c]`; claims only use in-bounds indices). -/
def cellD (f : Field α) (l r c : Nat) (d : α) : α :=
  ((f.getD l []).getD r []).getD c d

/-- A grid has exactly `R` rows, each of exactly `C` columns. -/
def rectGrid (g : Grid α) (R C : Nat) : Bool :=
  (g.length == R) && g.all fun row => row.length == C

/-- Every layer of the field is an `R × C` grid (spec §3 data-model invariant). -/
def rectField (f : Field α) (R C : Nat) : Bool :=
  f.all fun g => rectGrid g R C

/-- The per-`(row, col)` inner loop of `generate_stacked_layer_heights`
(cubester.py lines 329-334): running accumulator `z` starts at 0, each layer
stores `(z, height)` and then `z += height + layer_offset`. -/
def stackColumn (off z : ℚ) : List ℚ → List (ℚ × ℚ)
  | [] => []
  | m :: ms => (z, m) :: stackColumn off (z + m + off) ms

/-- The magnitudes read at `(r, c)` across all layers
(what `height_layers[l][r][c]` yields as `l` runs over the layers). -/
def columnAt (f : Field ℚ) (r c : Nat) : List ℚ :=
  f.map fun layer => (layer.getD r []).getD c 0

/-- `generate_stacked_layer_heights` (cubester.py lines 320-334): for each
`(r, c)` taken from layer 0's dimensions, stack the layers' magnitudes with
accumulator starting at 0.  The in-place update is modelled by rebuilding
the field over the iterated index ranges. -/
def generate_stacked_layer_heights (f : Field ℚ) (off : ℚ) : Field (ℚ × ℚ) :=
  (List.range f.length).map fun l =>
    (List.range (f.getD 0 []).length).map fun r =>
      (List.range ((f.getD 0 []).getD 0 []).length).map fun c =>
        (stackColumn off 0 (columnAt f r c)).getD l (0, 0)

-- ### generic list-access helper lemmas

lemma getD_range_map (g : Nat → α) (d : α) {n i : Nat} (h : i < n) :
    ((List.range n).map g).getD i d = g i := by
  simp [List.getD_eq_getElem?_getD, List.getElem?_map, List.getElem?_range, h]

lemma getD_map_lt (g : α → β) {l : List α} {i : Nat} (hi : i < l.length) (d : β) (d0 : α) :
    (l.map g).getD i d = g (l.getD i d0) := by
  rw [List.getD_eq_getElem?_getD, List.getElem?_map,
    List.getElem?_eq_getElem hi, List.getD_eq_getElem _ _ hi]
  rfl

lemma getD_mem_of_lt {l : List α} {i : Nat} (hi : i < l.length) (d : α) :
    l.getD i d ∈ l := by
  rw [List.getD_eq_getElem _ _ hi]
  exact List.getElem_mem hi

-- ### rectangularity helpers

lemma rect_layer_length {f : Field α} {R C : Nat} (h : rectField f R C = true)
    {l : Nat} (hl : l < f.length) : (f.getD l []).length = R := by
  have hmem := getD_mem_of_lt hl ([] : Grid α)
  have hall := (List.all_eq_true.mp h) _ hmem
  simp only [rectGrid, Bool.and_eq_true, beq_iff_eq, List.all_eq_true] at hall
  exact hall.1

lemma rect_row_length {f : Field α} {R C : Nat} (h : rectField f R C = true)
    {l r : Nat} (hl : l < f.length) (hr : r < R) :
    ((f.getD l []).getD r []).length = C := by
  have hmem := getD_mem_of_lt hl ([] : Grid α)
  have hall := (List.all_eq_true.mp h) _ hmem
  simp only [rectGrid, Bool.and_eq_true, beq_iff_eq, List.all_eq_true] at hall
  have hr' : r < (f.getD l []).length := by omega
  exact hall.2 _ (getD_mem_of_lt hr' ([] : List α))

-- ### stackColumn lemmas

lemma stackColumn_length (off z : ℚ) (ms : List ℚ) :
    (stackColumn off z ms).length = ms.length := by
  induction ms generalizing z with
  | nil => rfl
  | cons m ms ih => simp [stackColumn, ih]

lemma stackColumn_getD_zero (off z : ℚ) {ms : List ℚ} (h : ms ≠ []) (d : ℚ × ℚ) :
    (stackColumn off z ms).getD 0 d = (z, ms.getD 0 0) := by
  cases ms with
  | nil => exact absurd rfl h
  | cons m ms => rfl

lemma stackColumn_snd (off z : ℚ) {ms : List ℚ} {l : Nat} (h : l < ms.length) (d : ℚ × ℚ) :
    ((stackColumn off z ms).getD l d).2 = ms.getD l 0 := by
  induction ms generalizing z l with
  | nil => simp at h
  | cons m ms ih =>
    cases l with
    | zero => rfl
    | succ l =>
      simp only [stackColumn, List.getD_cons_succ]
      exact ih _ (by simpa using h)

lemma stackColumn_fst_succ (off z : ℚ) {ms : List ℚ} {l : Nat}
    (h : l + 1 < ms.length) (d : ℚ × ℚ) :
    ((stackColumn off z ms).getD (l + 1) d).1 =
      ((stackColumn off z ms).getD l d).1 + ((stackColumn off z ms).getD l d).2 + off := by
  induction ms generalizing z l with
  | nil => simp at h
  | cons m ms ih =>
    cases l with
    | zero =>
      have hne : ms ≠ [] := by
        cases ms with
        | nil => simp at h
        | cons a b => simp
      simp only [stackColumn, List.getD_cons_succ, List.getD_cons_zero]
      rw [stackColumn_getD_zero off _ hne]
    | succ l =>
      simp only [stackColumn, List.getD_cons_succ]
      exact ih _ (by simpa using h)

-- ### characterization of the stacked generator

lemma stacked_cellD {f : Field ℚ} {R C : Nat} (hrect : rectField f R C = true)
    {l r c : Nat} (off : ℚ) (hl : l < f.length) (hr : r < R) (hc : c < C) :
    cellD (generate_stacked_layer_heights f off) l r c (0, 0) =
      (stackColumn off 0 (columnAt f r c)).getD l (0, 0) := by
  have h0 : 0 < f.length := Nat.lt_of_le_of_lt (Nat.zero_le l) hl
  have hR0 : (f.getD 0 []).length = R := rect_layer_length hrect h0
  have hC0 : ((f.getD 0 []).getD 0 []).length = C :=
    rect_row_length hrect h0 (by omega)
  unfold cellD generate_stacked_layer_heights
  rw [getD_range_map _ _ hl, hR0, getD_range_map _ _ hr, hC0, getD_range_map _ _ hc]

lemma columnAt_length (f : Field ℚ) (r c : Nat) : (columnAt f r c).length = f.length := by
  simp [columnAt]

lemma columnAt_getD {f : Field ℚ} {l : Nat} (hl : l < f.length) (r c : Nat) :
    (columnAt f r c).getD l 0 = cellD f l r c 0 := by
  unfold columnAt cellD
  exact getD_map_lt _ hl _ []

/-- C1: Stacked-policy height derivation.  For a non-empty rectangular
magnitude field and any offset, the derived `(baseZ, height)` field has
`baseZ = 0` at layer 0 at every cell `(r, c)` — established for every
non-empty field, single-layer ones included (any in-range `l`, e.g.
`l = 0`, instantiates it) — and whenever `l ≥ 1`,
`baseZ(l) = baseZ(l-1) + height(l-1) + offset`. -/
theorem stacked_baseZ_derivation {f : Field ℚ} {R C : Nat} (off : ℚ)
    (hrect : rectField f R C = true) {l r c : Nat}
    (hl : l < f.length) (hr : r < R) (hc : c < C) :
    (cellD (generate_stacked_layer_heights f off) 0 r c (0, 0)).1 = 0 ∧
    (1 ≤ l →
      (cellD (generate_stacked_layer_heights f off) l r c (0, 0)).1 =
        (cellD (generate_stacked_layer_heights f off) (l - 1) r c (0, 0)).1 +
        (cellD (generate_stacked_layer_heights f off) (l - 1) r c (0, 0)).2 + off) := by
  have h0 : 0 < f.length := Nat.lt_of_le_of_lt (Nat.zero_le l) hl
  have hcol : (columnAt f r c).length = f.length := columnAt_length f r c
  constructor
  · rw [stacked_cellD hrect off h0 hr hc]
    have hne : columnAt f r c ≠ [] := by
      intro hnil
      rw [hnil] at hcol
      simp at hcol
      omega
    rw [stackColumn_getD_zero off 0 hne]
  · intro hl1
    obtain ⟨k, hk⟩ : ∃ k, l = k + 1 := ⟨l - 1, by omega⟩
    subst hk
    have hk1 : k < f.length := by omega
    simp only [Nat.add_sub_cancel]
    rw [stacked_cellD hrect off hl hr hc, stacked_cellD hrect off hk1 hr hc]
    exact stackColumn_fst_succ off 0 (by rw [hcol]; exact hl) _

/-- C1 witness: a concrete 2-layer 1×1 field with offset 5, instantiated
at layer 1 so the recurrence premise holds. -/
theorem stacked_baseZ_derivation_witness :
    ((cellD (generate_stacked_layer_heights [[[(1 : ℚ)]], [[2]]] 5) 0 0 0 (0, 0)).1 = 0 ∧
      (1 ≤ 1 →
        (cellD (generate_stacked_layer_heights [[[(1 : ℚ)]], [[2]]] 5) 1 0 0 (0, 0)).1 =
          (cellD (generate_stacked_layer_heights [[[(1 : ℚ)]], [[2]]] 5) 0 0 0 (0, 0)).1 +
          (cellD (generate_stacked_layer_heights [[[(1 : ℚ)]], [[2]]] 5) 0 0 0 (0, 0)).2 + 5)) ∧
    (cellD (generate_stacked_layer_heights [[[(3 : ℚ)]]] 0) 0 0 0 (0, 0)).1 = 0 :=
  ⟨stacked_baseZ_derivation (R := 1) (C := 1) 5 (by decide)
      (by decide) (by decide) (by decide),
    (stacked_baseZ_derivation (R := 1) (C := 1) 0 (l := 0) (by decide)
      (by decide) (by decide) (by decide)).1⟩

-- ### distinct layer heights (cubester.py lines 302-317, 351-365)

/-- One step of the `get_min_max_height` scan (cubester.py lines 358-363):
`if height > _max: _max = height elif height < _min: _min = height`. -/
def mmStep (mm : ℚ × ℚ) (h : ℚ) : ℚ × ℚ :=
  if h > mm.2 then (mm.1, h) else if h < mm.1 then (h, mm.2) else mm

/-- `get_min_max_height` (cubester.py lines 351-365): scan all heights of a
layer, starting from `layer[0][0]` as both min and max. -/
def get_min_max_height (layer : Grid ℚ) : ℚ × ℚ :=
  layer.foldl (fun acc row => row.foldl mmStep acc)
    ((layer.getD 0 []).getD 0 0, (layer.getD 0 []).getD 0 0)

/-- The layer loop of `generate_distinct_layer_heights` (cubester.py lines
309-317): every cell of a layer gets the running `z` as its base, then
`z += _max + layer_offset` where `_max` is the layer's maximum magnitude
(read before the layer is overwritten). -/
def distinctAux (off z : ℚ) : Field ℚ → Field (ℚ × ℚ)
  | [] => []
  | layer :: rest =>
      (layer.map fun row => row.map fun h => (z, h)) ::
        distinctAux off (z + (get_min_max_height layer).2 + off) rest

/-- `generate_distinct_layer_heights` (cubester.py lines 302-317). -/
def generate_distinct_layer_heights (f : Field ℚ) (off : ℚ) : Field (ℚ × ℚ) :=
  distinctAux off 0 f

/-- The shared base-z of layer `l` under the distinct policy: the value the
running accumulator `z` has when layer `l` is processed. -/
def distinctZ (f : Field ℚ) (off : ℚ) : Nat → ℚ
  | 0 => 0
  | l + 1 => distinctZ f off l + (get_min_max_height (f.getD l [])).2 + off

lemma distinctZ_cons (layer : Grid ℚ) (rest : Field ℚ) (off : ℚ) (l : Nat) :
    distinctZ (layer :: rest) off (l + 1) =
      (get_min_max_height layer).2 + off + distinctZ rest off l := by
  induction l with
  | zero => simp [distinctZ]
  | succ l ih =>
    rw [show distinctZ (layer :: rest) off (l + 1 + 1) =
        distinctZ (layer :: rest) off (l + 1) +
          (get_min_max_height ((layer :: rest).getD (l + 1) [])).2 + off from rfl,
      ih, List.getD_cons_succ,
      show distinctZ rest off (l + 1) =
        distinctZ rest off l + (get_min_max_height (rest.getD l [])).2 + off from rfl]
    ring

lemma distinct_cellD (off : ℚ) : ∀ (f : Field ℚ) (z : ℚ) (l r c : Nat),
    l < f.length → r < (f.getD l []).length → c < ((f.getD l []).getD r []).length →
    cellD (distinctAux off z f) l r c (0, 0) = (z + distinctZ f off l, cellD f l r c 0) := by
  intro f
  induction f with
  | nil => intro z l r c hl _ _; simp at hl
  | cons layer rest ih =>
    intro z l r c hl hr hc
    cases l with
    | zero =>
      simp only [distinctAux, cellD, List.getD_cons_zero] at hr hc ⊢
      rw [getD_map_lt _ hr _ [], getD_map_lt _ hc _ 0]
      simp [distinctZ]
    | succ l =>
      simp only [distinctAux, cellD, List.getD_cons_succ] at hr hc ⊢
      have hstep := ih (z + (get_min_max_height layer).2 + off) l r c
        (by simpa using hl) hr hc
      simp only [cellD] at hstep
      rw [hstep, distinctZ_cons]
      simp only [Prod.mk.injEq]
      exact ⟨by ring, trivial⟩

-- ### correctness of the max component of get_min_max_height

lemma rectGrid_length {g : Grid α} {R C : Nat} (h : rectGrid g R C = true) :
    g.length = R := by
  simp only [rectGrid, Bool.and_eq_true, beq_iff_eq, List.all_eq_true] at h
  exact h.1

lemma rectGrid_row_length {g : Grid α} {R C : Nat} (h : rectGrid g R C = true)
    {row : List α} (hrow : row ∈ g) : row.length = C := by
  simp only [rectGrid, Bool.and_eq_true, beq_iff_eq, List.all_eq_true] at h
  exact h.2 _ hrow

lemma rectField_layer {f : Field α} {R C : Nat} (h : rectField f R C = true)
    {l : Nat} (hl : l < f.length) : rectGrid (f.getD l []) R C = true :=
  (List.all_eq_true.mp h) _ (getD_mem_of_lt hl [])

lemma mmStep_snd (mm : ℚ × ℚ) (h : ℚ) : (mmStep mm h).2 = max mm.2 h := by
  by_cases h1 : h > mm.2
  · simp [mmStep, h1, max_eq_right (le_of_lt h1)]
  · by_cases h2 : h < mm.1
    · simp [mmStep, h1, h2, max_eq_left (le_of_not_lt h1)]
    · simp [mmStep, h1, h2, max_eq_left (le_of_not_lt h1)]

lemma foldl_mmStep_snd (hs : List ℚ) : ∀ a : ℚ × ℚ,
    (hs.foldl mmStep a).2 = hs.foldl max a.2 := by
  induction hs with
  | nil => intro a; rfl
  | cons h t ih =>
    intro a
    rw [List.foldl_cons, List.foldl_cons, ih, mmStep_snd]

lemma grid_mm_snd (g : Grid ℚ) : ∀ a : ℚ × ℚ,
    (g.foldl (fun acc row => row.foldl mmStep acc) a).2 =
      g.foldl (fun m row => row.foldl max m) a.2 := by
  induction g with
  | nil => intro a; rfl
  | cons row rest ih =>
    intro a
    rw [List.foldl_cons, List.foldl_cons, ih, foldl_mmStep_snd]

lemma foldl_max_init_le (hs : List ℚ) : ∀ a : ℚ, a ≤ hs.foldl max a := by
  induction hs with
  | nil => intro a; exact le_refl a
  | cons h t ih => intro a; exact le_trans (le_max_left a h) (ih (max a h))

lemma le_foldl_max_of_mem {hs : List ℚ} {v : ℚ} (hv : v ∈ hs) :
    ∀ a : ℚ, v ≤ hs.foldl max a := by
  induction hs with
  | nil => cases hv
  | cons h t ih =>
    intro a
    rcases List.mem_cons.mp hv with h1 | h2
    · subst h1; exact le_trans (le_max_right a v) (foldl_max_init_le t _)
    · exact ih h2 _

lemma foldl_max_mem (hs : List ℚ) : ∀ a : ℚ,
    hs.foldl max a = a ∨ hs.foldl max a ∈ hs := by
  induction hs with
  | nil => intro a; exact Or.inl rfl
  | cons h t ih =>
    intro a
    rw [List.foldl_cons]
    rcases ih (max a h) with h1 | h2
    · rcases max_choice a h with hm | hm
      · exact Or.inl (by rw [h1, hm])
      · exact Or.inr (by rw [h1, hm]; exact List.mem_cons_self _ _)
    · exact Or.inr (List.mem_cons_of_mem _ h2)

lemma grid_max_init_le (g : Grid ℚ) : ∀ a : ℚ,
    a ≤ g.foldl (fun m row => row.foldl max m) a := by
  induction g with
  | nil => intro a; exact le_refl a
  | cons row rest ih =>
    intro a
    exact le_trans (foldl_max_init_le row a) (ih _)

lemma le_grid_max_of_mem {g : Grid ℚ} {row : List ℚ} {v : ℚ}
    (hrow : row ∈ g) (hv : v ∈ row) : ∀ a : ℚ,
    v ≤ g.foldl (fun m row => row.foldl max m) a := by
  induction g with
  | nil => cases hrow
  | cons r t ih =>
    intro a
    rw [List.foldl_cons]
    rcases List.mem_cons.mp hrow with h1 | h2
    · subst h1
      exact le_trans (le_foldl_max_of_mem hv a) (grid_max_init_le t _)
    · exact ih h2 _

lemma grid_max_mem (g : Grid ℚ) : ∀ a : ℚ,
    g.foldl (fun m row => row.foldl max m) a = a ∨
      ∃ row ∈ g, g.foldl (fun m row => row.foldl max m) a ∈ row := by
  induction g with
  | nil => intro a; exact Or.inl rfl
  | cons r t ih =>
    intro a
    rw [List.foldl_cons]
    rcases ih (r.foldl max a) with h1 | h2
    · rcases foldl_max_mem r a with hm | hm
      · exact Or.inl (by rw [h1, hm])
      · exact Or.inr ⟨r, List.mem_cons_self _ _, by rw [h1]; exact hm⟩
    · obtain ⟨row, hrow, hmem⟩ := h2
      exact Or.inr ⟨row, List.mem_cons_of_mem _ hrow, hmem⟩

lemma get_min_max_height_max_spec {g : Grid ℚ} {R C : Nat}
    (hrect : rectGrid g R C = true) (hR : 0 < R) (hC : 0 < C) :
    (∃ row ∈ g, (get_min_max_height g).2 ∈ row) ∧
    ∀ row ∈ g, ∀ v ∈ row, v ≤ (get_min_max_height g).2 := by
  have hrow0 : g.getD 0 [] ∈ g := by
    have : g.length = R := rectGrid_length hrect
    exact getD_mem_of_lt (by omega) []
  have hfirst : (g.getD 0 []).getD 0 0 ∈ g.getD 0 [] := by
    have : (g.getD 0 []).length = C := rectGrid_row_length hrect hrow0
    exact getD_mem_of_lt (by omega) 0
  unfold get_min_max_height
  rw [grid_mm_snd]
  constructor
  · rcases grid_max_mem g ((g.getD 0 []).getD 0 0) with h1 | h2
    · exact ⟨g.getD 0 [], hrow0, by rw [h1]; exact hfirst⟩
    · exact h2
  · intro row hrow v hv
    exact le_grid_max_of_mem hrow hv _

/-- C2 counterexample: on the 3-layer field `[[[1]], [[1]], [[1]]]` with
offset 0 the code assigns `baseZ(layer 2) = 2` (it accumulates layer maxima),
while the claim predicts `baseZ(layer 2) = max(magnitude in layer 1) + 0 = 1`. -/
theorem distinct_baseZ_claim_counterexample :
    ¬ ((cellD (generate_distinct_layer_heights [[[1]], [[1]], [[(1 : ℚ)]]] 0) 2 0 0 (0, 0)).1 =
        (get_min_max_height [[(1 : ℚ)]]).2 + 0) := by
  norm_num [generate_distinct_layer_heights, distinctAux, get_min_max_height, mmStep, cellD]

/-- C2 (amended): Distinct-policy height derivation.  All cells within a
layer share the same `baseZ` (the value `distinctZ`), with
`baseZ(layer 0) = 0` and, for every layer `k+1`,
`baseZ(layer k+1) = baseZ(layer k) + max(magnitude in layer k) + offset`,
where the layer maximum is `(get_min_max_height layer).2`, which is shown to
be a member of layer `k` and an upper bound of all its magnitudes. -/
theorem distinct_baseZ_derivation {f : Field ℚ} {R C : Nat} (off : ℚ)
    (hrect : rectField f R C = true) {l r c k : Nat}
    (hl : l < f.length) (hr : r < R) (hc : c < C) (hk : k < f.length) :
    cellD (generate_distinct_layer_heights f off) l r c (0, 0) =
      (distinctZ f off l, cellD f l r c 0) ∧
    distinctZ f off 0 = 0 ∧
    distinctZ f off (k + 1) =
      distinctZ f off k + (get_min_max_height (f.getD k [])).2 + off ∧
    (∃ row ∈ f.getD k [], (get_min_max_height (f.getD k [])).2 ∈ row) ∧
    (∀ row ∈ f.getD k [], ∀ v ∈ row, v ≤ (get_min_max_height (f.getD k [])).2) := by
  have hspec := get_min_max_height_max_spec (rectField_layer hrect hk)
    (show 0 < R by omega) (show 0 < C by omega)
  refine ⟨?_, rfl, rfl, hspec.1, hspec.2⟩
  have hchar := distinct_cellD off f 0 l r c hl
    (by rw [rect_layer_length hrect hl]; exact hr)
    (by rw [rect_row_length hrect hl hr]; exact hc)
  rw [zero_add] at hchar
  exact hchar

/-- C2 witness: concrete 2-layer 1×1 field with offset 3. -/
theorem distinct_baseZ_derivation_witness :
    cellD (generate_distinct_layer_heights [[[(1 : ℚ)]], [[2]]] 3) 1 0 0 (0, 0) =
      (distinctZ [[[(1 : ℚ)]], [[2]]] 3 1, cellD [[[(1 : ℚ)]], [[2]]] 1 0 0 0) ∧
    distinctZ [[[(1 : ℚ)]], [[2]]] 3 0 = 0 ∧
    distinctZ [[[(1 : ℚ)]], [[2]]] 3 (0 + 1) =
      distinctZ [[[(1 : ℚ)]], [[2]]] 3 0 +
        (get_min_max_height ([[[(1 : ℚ)]], [[2]]].getD 0 [])).2 + 3 ∧
    (∃ row ∈ [[[(1 : ℚ)]], [[2]]].getD 0 [],
      (get_min_max_height ([[[(1 : ℚ)]], [[2]]].getD 0 [])).2 ∈ row) ∧
    (∀ row ∈ [[[(1 : ℚ)]], [[2]]].getD 0 [], ∀ v ∈ row,
      v ≤ (get_min_max_height ([[[(1 : ℚ)]], [[2]]].getD 0 [])).2) :=
  distinct_baseZ_derivation (R := 1) (C := 1) 3 (by decide)
    (by decide) (by decide) (by decide) (by decide)

/-- C10: both layer-height generators keep every cell's magnitude as the
`height` (second) component; only `baseZ` is newly computed. -/
theorem layer_height_magnitude_preservation {f : Field ℚ} {R C : Nat} (off : ℚ)
    (hrect : rectField f R C = true) {l r c : Nat}
    (hl : l < f.length) (hr : r < R) (hc : c < C) :
    (cellD (generate_stacked_layer_heights f off) l r c (0, 0)).2 = cellD f l r c 0 ∧
    (cellD (generate_distinct_layer_heights f off) l r c (0, 0)).2 = cellD f l r c 0 := by
  constructor
  · rw [stacked_cellD hrect off hl hr hc,
      stackColumn_snd off 0 (by rw [columnAt_length]; exact hl) _, columnAt_getD hl]
  · have hchar := distinct_cellD off f 0 l r c hl
      (by rw [rect_layer_length hrect hl]; exact hr)
      (by rw [rect_row_length hrect hl hr]; exact hc)
    rw [show generate_distinct_layer_heights f off = distinctAux off 0 f from rfl, hchar]

/-- C10 witness: concrete 2-layer 1×1 field with offset 5. -/
theorem layer_height_magnitude_preservation_witness :
    (cellD (generate_stacked_layer_heights [[[(1 : ℚ)]], [[2]]] 5) 1 0 0 (0, 0)).2 =
      cellD [[[(1 : ℚ)]], [[2]]] 1 0 0 0 ∧
    (cellD (generate_distinct_layer_heights [[[(1 : ℚ)]], [[2]]] 5) 1 0 0 (0, 0)).2 =
      cellD [[[(1 : ℚ)]], [[2]]] 1 0 0 0 :=
  layer_height_magnitude_preservation (R := 1) (C := 1) 5 (by decide)
    (by decide) (by decide) (by decide)

-- ### error behaviour on an empty field (claim C9)

/-- Kinds of failure the claims talk about: the Python `IndexError` and
`TypeError` actually raised, and the `ConfigurationError` the spec calls
for (no such error type exists anywhere in cubester.py). -/
inductive PyExc where
  | indexError : PyExc
  | configurationError : PyExc
  | typeError : PyExc
deriving DecidableEq

/-- `generate_stacked_layer_heights` with Python's indexing failure made
explicit: the first statement of the function evaluates `height_layers[0]`
(cubester.py line 327), which raises `IndexError` when the field has zero
layers; otherwise the function proceeds as modelled above. -/
def generate_stacked_layer_heights_checked (f : Field ℚ) (off : ℚ) :
    Except PyExc (Field (ℚ × ℚ)) :=
  match f with
  | [] => Except.error PyExc.indexError
  | _ :: _ => Except.ok (generate_stacked_layer_heights f off)

/-- C9 counterexample: on the empty field the stacked layer-height builder
does not fail with a ConfigurationError — it raises an IndexError. -/
theorem empty_field_error_counterexample :
    generate_stacked_layer_heights_checked [] 0 ≠
        Except.error PyExc.configurationError ∧
      generate_stacked_layer_heights_checked [] 0 = Except.error PyExc.indexError := by
  refine ⟨fun h => ?_, rfl⟩
  exact PyExc.noConfusion (Except.error.inj h)

/-- C9 (amended): running the stacked layer-height builder on an empty
Field (zero layers) fails, but with an IndexError from the out-of-bounds
access `height_layers[0]`, not with a ConfigurationError (which the code
never defines). -/
theorem empty_field_error (off : ℚ) :
    generate_stacked_layer_heights_checked [] off = Except.error PyExc.indexError := rfl

-- ### overall centering (cubester.py lines 80-92, claim C4)

/-- `center_layer_heights_overall` (cubester.py lines 80-92): for each
`(r, c)` of layer 0's dimensions, read `highest = z + height` of the top
layer (`height_layers[-1][r][c]`, read before that cell is shifted) and
shift every layer's `z` at `(r, c)` by `-highest / 2`.  The in-place update
is modelled by rebuilding over the iterated ranges. -/
def center_layer_heights_overall (f : Field (ℚ × ℚ)) : Field (ℚ × ℚ) :=
  (List.range f.length).map fun l =>
    (List.range (f.getD 0 []).length).map fun r =>
      (List.range ((f.getD 0 []).getD 0 []).length).map fun c =>
        ((cellD f l r c (0, 0)).1 -
            ((cellD f (f.length - 1) r c (0, 0)).1 +
              (cellD f (f.length - 1) r c (0, 0)).2) / 2,
          (cellD f l r c (0, 0)).2)

lemma overall_cellD {f : Field (ℚ × ℚ)} {R C : Nat} (hrect : rectField f R C = true)
    {l r c : Nat} (hl : l < f.length) (hr : r < R) (hc : c < C) :
    cellD (center_layer_heights_overall f) l r c (0, 0) =
      ((cellD f l r c (0, 0)).1 -
          ((cellD f (f.length - 1) r c (0, 0)).1 +
            (cellD f (f.length - 1) r c (0, 0)).2) / 2,
        (cellD f l r c (0, 0)).2) := by
  have h0 : 0 < f.length := Nat.lt_of_le_of_lt (Nat.zero_le l) hl
  have hR0 : (f.getD 0 []).length = R := rect_layer_length hrect h0
  have hC0 : ((f.getD 0 []).getD 0 []).length = C :=
    rect_row_length hrect h0 (by omega)
  conv =>
    lhs
    unfold cellD center_layer_heights_overall
  rw [getD_range_map _ _ hl, hR0, getD_range_map _ _ hr, hC0, getD_range_map _ _ hc]

/-- C4: Overall centering.  Every cell `(z, h)` becomes `(z - top/2, h)`
where `top = baseZ + height` of the last layer at the same `(row, col)`
(taken from the field before centering); heights are unchanged and the
relative vertical order of any two layers at a cell is preserved. -/
theorem overall_centering {f : Field (ℚ × ℚ)} {R C : Nat}
    (hrect : rectField f R C = true) {l l2 r c : Nat}
    (hl : l < f.length) (hl2 : l2 < f.length) (hr : r < R) (hc : c < C) :
    cellD (center_layer_heights_overall f) l r c (0, 0) =
      ((cellD f l r c (0, 0)).1 -
          ((cellD f (f.length - 1) r c (0, 0)).1 +
            (cellD f (f.length - 1) r c (0, 0)).2) / 2,
        (cellD f l r c (0, 0)).2) ∧
    ((cellD (center_layer_heights_overall f) l r c (0, 0)).1 ≤
        (cellD (center_layer_heights_overall f) l2 r c (0, 0)).1 ↔
      (cellD f l r c (0, 0)).1 ≤ (cellD f l2 r c (0, 0)).1) := by
  refine ⟨overall_cellD hrect hl hr hc, ?_⟩
  rw [overall_cellD hrect hl hr hc, overall_cellD hrect hl2 hr hc]
  exact sub_le_sub_iff_right _

/-- C4 witness: a concrete 2-layer 1×1 field. -/
theorem overall_centering_witness :
    cellD (center_layer_heights_overall [[[((1 : ℚ), 2)]], [[(3, 4)]]]) 0 0 0 (0, 0) =
      ((cellD [[[((1 : ℚ), 2)]], [[(3, 4)]]] 0 0 0 (0, 0)).1 -
          ((cellD [[[((1 : ℚ), 2)]], [[(3, 4)]]]
              ([[[((1 : ℚ), 2)]], [[(3, 4)]]].length - 1) 0 0 (0, 0)).1 +
            (cellD [[[((1 : ℚ), 2)]], [[(3, 4)]]]
              ([[[((1 : ℚ), 2)]], [[(3, 4)]]].length - 1) 0 0 (0, 0)).2) / 2,
        (cellD [[[((1 : ℚ), 2)]], [[(3, 4)]]] 0 0 0 (0, 0)).2) ∧
    ((cellD (center_layer_heights_overall [[[((1 : ℚ), 2)]], [[(3, 4)]]]) 0 0 0 (0, 0)).1 ≤
        (cellD (center_layer_heights_overall [[[((1 : ℚ), 2)]], [[(3, 4)]]]) 1 0 0 (0, 0)).1 ↔
      (cellD [[[((1 : ℚ), 2)]], [[(3, 4)]]] 0 0 0 (0, 0)).1 ≤
        (cellD [[[((1 : ℚ), 2)]], [[(3, 4)]]] 1 0 0 (0, 0)).1) :=
  overall_centering (R := 1) (C := 1) (by decide)
    (by decide) (by decide) (by decide) (by decide)

-- ### per-layer centering (cubester.py lines 65-77 and 337-348, claim C5)

/-- `get_average_height_of_middle` (cubester.py lines 337-348): total of
`z + height/2` over all cells, divided by `len(layer) * len(layer[0])`. -/
def get_average_height_of_middle (layer : Grid (ℚ × ℚ)) : ℚ :=
  (layer.map fun row => (row.map fun zh => zh.1 + zh.2 / 2).sum).sum /
    ((layer.length : ℚ) * ((layer.getD 0 []).length : ℚ))

/-- `center_layer_heights_by_layer` (cubester.py lines 65-77): per layer,
compute `middle` once (before any cell of the layer is replaced), then
replace every cell `(z, h)` with `(middle - h/2, h)`. -/
def center_layer_heights_by_layer (f : Field (ℚ × ℚ)) : Field (ℚ × ℚ) :=
  f.map fun layer =>
    layer.map fun row => row.map fun zh =>
      (get_average_height_of_middle layer - zh.2 / 2, zh.2)

lemma sum_map_join (g : α → ℚ) (L : List (List α)) :
    ((L.flatten).map g).sum = (L.map fun row => (row.map g).sum).sum := by
  induction L with
  | nil => rfl
  | cons row rest ih =>
    rw [List.flatten_cons, List.map_append, List.sum_append, ih, List.map_cons, List.sum_cons]

lemma avg_middle_eq {layer : Grid (ℚ × ℚ)} {R C : Nat}
    (hrect : rectGrid layer R C = true) (hR : 0 < R) :
    get_average_height_of_middle layer =
      ((layer.flatten).map fun zh => zh.1 + zh.2 / 2).sum / ((R : ℚ) * (C : ℚ)) := by
  have hlen : layer.length = R := rectGrid_length hrect
  have hrow : (layer.getD 0 []).length = C :=
    rectGrid_row_length hrect (getD_mem_of_lt (by omega) [])
  rw [get_average_height_of_middle, sum_map_join, hlen, hrow]

/-- C5: Per-layer centering.  Every cell `(z, h)` of layer `l` becomes
`(avg - h/2, h)` where `avg` is the arithmetic mean of `baseZ + height/2`
over all `R × C` cells of that layer, computed from the layer's state
before the replacement; the height component is unchanged. -/
theorem per_layer_centering {f : Field (ℚ × ℚ)} {R C : Nat}
    (hrect : rectField f R C = true) {l r c : Nat}
    (hl : l < f.length) (hr : r < R) (hc : c < C) :
    cellD (center_layer_heights_by_layer f) l r c (0, 0) =
      ((((f.getD l []).flatten.map fun zh => zh.1 + zh.2 / 2).sum / ((R : ℚ) * (C : ℚ))) -
          (cellD f l r c (0, 0)).2 / 2,
        (cellD f l r c (0, 0)).2) := by
  have hr' : r < (f.getD l []).length := by rw [rect_layer_length hrect hl]; exact hr
  have hc' : c < ((f.getD l []).getD r []).length := by
    rw [rect_row_length hrect hl hr]; exact hc
  have havg := avg_middle_eq (rectField_layer hrect hl) (show 0 < R by omega)
  unfold cellD center_layer_heights_by_layer
  rw [getD_map_lt _ hl _ [], getD_map_lt _ hr' _ [], getD_map_lt _ hc' _ (0, 0), havg]

/-- C5 witness: a concrete 1-layer 1×2 field. -/
theorem per_layer_centering_witness :
    cellD (center_layer_heights_by_layer [[[((1 : ℚ), 2), (3, 4)]]]) 0 0 1 (0, 0) =
      (((([[[((1 : ℚ), 2), (3, 4)]]].getD 0 []).flatten.map
            fun zh => zh.1 + zh.2 / 2).sum / ((1 : ℚ) * (2 : ℚ))) -
          (cellD [[[((1 : ℚ), 2), (3, 4)]]] 0 0 1 (0, 0)).2 / 2,
        (cellD [[[((1 : ℚ), 2), (3, 4)]]] 0 0 1 (0, 0)).2) :=
  per_layer_centering (R := 1) (C := 2) (by decide)
    (by decide) (by decide) (by decide)

-- ### linear coloring (cubester.py lines 271-299 and 698-703, claim C7)

/-- RGBA color, the 4-component `mathutils.Vector` of the Python code. -/
abbrev Vec4 := ℚ × ℚ × ℚ × ℚ

/-- `generate_linear_colors` as the program actually calls it
(cubester.py lines 271-299, call site lines 698-703).  By the time the
linear-coloring branch of `execute` runs, `frame[1]` has already been
rewritten in place by the layer stage (lines 674-686; the `else` branch
runs even with layering disabled), so every cell of `height_layers` is a
`(baseZ, height)` tuple — hence the argument type `Field (ℚ × ℚ)`.
Line 286 computes `slope`, a 4-component `mathutils.Vector`, which
succeeds; but in the first loop iteration (line 296-297, reachable as
soon as `layers`, `rows` and `cols` are all positive — at the call site
`layers = len(frame[1])` and the field is `rows × cols`, so
`height_layers[0][0][0]` itself succeeds) `h` is a 2-tuple and
`slope * h` is a Vector-times-tuple multiplication, which raises a
`TypeError`; no color is ever produced.  When any of the three counts is
zero the loops build only empty lists and no multiplication runs. -/
def generate_linear_colors (layers rows cols : Nat) (height_layers : Field (ℚ × ℚ))
    (min_color max_color : Vec4) (min_height max_height : ℚ) :
    Except PyExc (Field Vec4) :=
  if 0 < layers ∧ 0 < rows ∧ 0 < cols then Except.error PyExc.typeError
  else Except.ok ((List.range layers).map fun _ =>
    (List.range rows).map fun _ => ([] : List Vec4))

/-- The height bounds `CSGenerateMesh.execute` passes to
`generate_linear_colors` (cubester.py lines 698-703): minimum 0, maximum
`1 if props.create_layers else 4`. -/
def linear_height_bounds (create_layers : Bool) : ℚ × ℚ :=
  (0, if create_layers then 1 else 4)

/-- C7 (code bug): Linear coloring.  The claim (and spec §4.4) is the
evident intent, but on every non-degenerate rectangular height field —
which at the call site always holds `(baseZ, height)` tuples — the linear
color policy raises a `TypeError` from `slope * h` instead of computing
`minColor + (height - minB) * (maxColor - minColor) / (maxB - minB)`;
in particular the spec's height-2 cell never receives
`(0.5, 0.5, 0.5, 1)`. -/
theorem linear_coloring_type_error {f : Field (ℚ × ℚ)} {R C : Nat}
    (minC maxC : Vec4) (create_layers : Bool)
    (hrect : rectField f R C = true)
    (h1 : 0 < f.length) (h2 : 0 < R) (h3 : 0 < C) :
    generate_linear_colors f.length R C f minC maxC
        (linear_height_bounds create_layers).1 (linear_height_bounds create_layers).2 =
      Except.error PyExc.typeError := by
  unfold generate_linear_colors
  rw [if_pos ⟨h1, h2, h3⟩]

/-- C7 witness: the spec's scenario input.  `[[[(0, 2)]]]` is exactly
`generate_stacked_layer_heights [[[2]]] 0`, the height field `execute`
holds when the magnitude was `2.0` with layering disabled; with
`minColor = (0,0,0,1)`, `maxColor = (1,1,1,1)` and bounds `[0, 4]` the
call fails with a TypeError. -/
theorem linear_coloring_type_error_witness :
    generate_linear_colors [[[((0 : ℚ), 2)]]].length 1 1 [[[((0 : ℚ), 2)]]]
        ((0 : ℚ), 0, 0, 1) (1, 1, 1, 1)
        (linear_height_bounds false).1 (linear_height_bounds false).2 =
      Except.error PyExc.typeError :=
  linear_coloring_type_error (f := [[[((0 : ℚ), 2)]]]) (R := 1) (C := 1)
    ((0 : ℚ), 0, 0, 1) (1, 1, 1, 1) false
    (by decide) (by decide) (by decide) (by decide)

-- ### the image sampler (cubester.py lines 95-161, claim C3)

/-- The pixel buffer handed to `collect_image_data`: `image.size` is
`(width, height)`, `image.channels` the per-pixel channel count, and
`image.pixels` the flat row-major value list. -/
structure ImageData where
  width : Nat
  height : Nat
  channels : Nat
  pixels : List ℚ

/-- The flat pixel index `pos = ((r * width) + c) * channels + layer_i`
(cubester.py line 130). -/
def sample_pos (img : ImageData) (layer_i r c : Nat) : Nat :=
  ((r * img.width) + c) * img.channels + layer_i

/-- The height sampled at `(r, c)` for layer `layer_i` (cubester.py lines
132-143): the single channel value when layers are split, otherwise the sum
of all channel values of the pixel (`pixels[pos:pos+channels]`). -/
def sampleHeight (img : ImageData) (multiple_layers : Bool) (layer_i r c : Nat) : ℚ :=
  if multiple_layers then img.pixels.getD (sample_pos img layer_i r c) 0
  else ((img.pixels.drop (sample_pos img layer_i r c)).take img.channels).sum

/-- The color sampled at `(r, c)` for layer `layer_i` (cubester.py lines
136-145): when layers are split, a zero vector with only channel `layer_i`
populated; otherwise the raw channel tuple; then `color[:channels]` plus
`[0] * (4 - channels)` padding (Python's negative repeat count yields `[]`,
as does Nat subtraction here). -/
def sampleColor (img : ImageData) (multiple_layers : Bool) (layer_i r c : Nat) : List ℚ :=
  let color := if multiple_layers then
      (List.range img.channels).map fun j =>
        if j = layer_i then img.pixels.getD (sample_pos img layer_i r c) 0 else 0
    else (img.pixels.drop (sample_pos img layer_i r c)).take img.channels
  color.take img.channels ++ List.replicate (4 - img.channels) 0

/-- `collect_image_data` (cubester.py lines 95-161): steps are the floor
divisions `row_step = height // rows`, `col_step = width // columns`; the
loops are bounded by the `rows`/`columns` counters while the stepped pixel
coordinates advance by `row_step`/`col_step` per iteration (so iteration
`ri` reads row `ri * row_step`), over `layer_count = channels` layers when
splitting channels, else 1. -/
def collect_image_data (img : ImageData) (rows columns : Nat) (multiple_layers : Bool) :
    Field (List ℚ) × Field ℚ :=
  ((List.range (if multiple_layers then img.channels else 1)).map fun layer_i =>
      (List.range rows).map fun ri =>
        (List.range columns).map fun ci =>
          sampleColor img multiple_layers layer_i
            (ri * (img.height / rows)) (ci * (img.width / columns)),
    (List.range (if multiple_layers then img.channels else 1)).map fun layer_i =>
      (List.range rows).map fun ri =>
        (List.range columns).map fun ci =>
          sampleHeight img multiple_layers layer_i
            (ri * (img.height / rows)) (ci * (img.width / columns)))

/-- C3: Sampler dimensions.  For `1 ≤ rows ≤ height` and
`1 ≤ columns ≤ width`, both returned fields have
`layer_count = channels` (split) or `1` layers, every layer exactly `rows`
rows, every row exactly `columns` columns — regardless of divisibility —
and each height cell is the sample at the stepped position
`(ri * (height // rows), ci * (width // columns))` (floor division). -/
theorem sampler_dims (img : ImageData) {rows columns : Nat} (ml : Bool)
    {l ri ci : Nat}
    (h1 : 1 ≤ rows) (h2 : rows ≤ img.height)
    (h3 : 1 ≤ columns) (h4 : columns ≤ img.width)
    (hl : l < (if ml then img.channels else 1)) (hri : ri < rows) (hci : ci < columns) :
    (collect_image_data img rows columns ml).1.length =
      (if ml then img.channels else 1) ∧
    (collect_image_data img rows columns ml).2.length =
      (if ml then img.channels else 1) ∧
    ((collect_image_data img rows columns ml).1.getD l []).length = rows ∧
    (((collect_image_data img rows columns ml).1.getD l []).getD ri []).length = columns ∧
    ((collect_image_data img rows columns ml).2.getD l []).length = rows ∧
    (((collect_image_data img rows columns ml).2.getD l []).getD ri []).length = columns ∧
    cellD (collect_image_data img rows columns ml).2 l ri ci 0 =
      sampleHeight img ml l (ri * (img.height / rows)) (ci * (img.width / columns)) := by
  have hcf : (collect_image_data img rows columns ml).1.getD l [] =
      (List.range rows).map fun ri =>
        (List.range columns).map fun ci =>
          sampleColor img ml l (ri * (img.height / rows)) (ci * (img.width / columns)) := by
    unfold collect_image_data
    exact getD_range_map _ _ hl
  have hhf : (collect_image_data img rows columns ml).2.getD l [] =
      (List.range rows).map fun ri =>
        (List.range columns).map fun ci =>
          sampleHeight img ml l (ri * (img.height / rows)) (ci * (img.width / columns)) := by
    unfold collect_image_data
    exact getD_range_map _ _ hl
  refine ⟨by simp [collect_image_data], by simp [collect_image_data], ?_, ?_, ?_, ?_, ?_⟩
  · rw [hcf]; simp
  · rw [hcf, getD_range_map _ _ hri]; simp
  · rw [hhf]; simp
  · rw [hhf, getD_range_map _ _ hri]; simp
  · unfold cellD
    rw [hhf, getD_range_map _ _ hri, getD_range_map _ _ hci]

/-- C3 witness: a 1×1 single-channel image sampled at 1×1. -/
theorem sampler_dims_witness :
    (collect_image_data (ImageData.mk 1 1 1 [5]) 1 1 false).1.length =
      (if false then (ImageData.mk 1 1 1 [(5 : ℚ)]).channels else 1) ∧
    (collect_image_data (ImageData.mk 1 1 1 [5]) 1 1 false).2.length =
      (if false then (ImageData.mk 1 1 1 [(5 : ℚ)]).channels else 1) ∧
    ((collect_image_data (ImageData.mk 1 1 1 [5]) 1 1 false).1.getD 0 []).length = 1 ∧
    (((collect_image_data (ImageData.mk 1 1 1 [5]) 1 1 false).1.getD 0 []).getD 0 []).length = 1 ∧
    ((collect_image_data (ImageData.mk 1 1 1 [5]) 1 1 false).2.getD 0 []).length = 1 ∧
    (((collect_image_data (ImageData.mk 1 1 1 [5]) 1 1 false).2.getD 0 []).getD 0 []).length = 1 ∧
    cellD (collect_image_data (ImageData.mk 1 1 1 [5]) 1 1 false).2 0 0 0 0 =
      sampleHeight (ImageData.mk 1 1 1 [5]) false 0
        (0 * ((ImageData.mk 1 1 1 [(5 : ℚ)]).height / 1))
        (0 * ((ImageData.mk 1 1 1 [(5 : ℚ)]).width / 1)) :=
  sampler_dims (ImageData.mk 1 1 1 [5]) false (by decide) (by decide)
    (by decide) (by decide) (by decide) (by decide) (by decide)

-- ### vertex color assignment (cubester.py lines 164-179, claim C8)

/-- The sequence of writes `color_vertex_layer` performs: the running index
`i` advances once per write, the loops iterate layers outer, then
`range(rows)`, then `range(cols)`, and the innermost
`for _ in range(steps)` writes the cell's color `steps` times. -/
def vertex_color_writes (color_layers : Field α) (rows cols steps : Nat) (d : α) : List α :=
  color_layers.flatMap fun layer =>
    (List.range rows).flatMap fun r =>
      (List.range cols).flatMap fun c =>
        List.replicate steps ((layer.getD r []).getD c d)

/-- `color_vertex_layer` (cubester.py lines 164-179): the buffer entries
`0 ≤ i < layers*rows*cols*steps` are overwritten in traversal order, the
remainder of the buffer is untouched. -/
def color_vertex_layer (vertex_layer : List α) (color_layers : Field α)
    (rows cols steps : Nat) (d : α) : List α :=
  vertex_color_writes color_layers rows cols steps d ++
    vertex_layer.drop (vertex_color_writes color_layers rows cols steps d).length

/-- The per-cell colors in traversal order (layers outer, then rows, then
columns): one entry per cell. -/
def flatCellColors (color_layers : Field α) (rows cols : Nat) (d : α) : List α :=
  color_layers.flatMap fun layer =>
    (List.range rows).flatMap fun r =>
      (List.range cols).map fun c => (layer.getD r []).getD c d

lemma length_flatMap_const {xs : List β} {f : β → List α} {m : Nat}
    (hf : ∀ x ∈ xs, (f x).length = m) : (xs.flatMap f).length = xs.length * m := by
  induction xs with
  | nil => simp
  | cons x t ih =>
    rw [List.flatMap_cons, List.length_append, hf x (List.mem_cons_self x t),
      ih fun y hy => hf y (List.mem_cons_of_mem _ hy), List.length_cons]
    ring

lemma flatMap_const_getD {f : β → List α} {m : Nat} (d : α) (x0 : β) :
    ∀ (xs : List β), (∀ x ∈ xs, (f x).length = m) → ∀ {k j : Nat},
      k < xs.length → j < m →
      (xs.flatMap f).getD (k * m + j) d = (f (xs.getD k x0)).getD j d := by
  intro xs
  induction xs with
  | nil => intro _ k j hk _; simp at hk
  | cons x t ih =>
    intro hf k j hk hj
    rw [List.flatMap_cons]
    cases k with
    | zero =>
      rw [Nat.zero_mul, Nat.zero_add,
        List.getD_append _ _ _ _ (by rw [hf x (List.mem_cons_self x t)]; exact hj),
        List.getD_cons_zero]
    | succ k =>
      have hx : (f x).length = m := hf x (List.mem_cons_self x t)
      have hidx : (k + 1) * m + j = (f x).length + (k * m + j) := by rw [hx]; ring
      rw [hidx, List.getD_append_right _ _ _ _ (Nat.le_add_right _ _),
        Nat.add_sub_cancel_left, List.getD_cons_succ]
      exact ih (fun y hy => hf y (List.mem_cons_of_mem _ hy))
        (by simpa using hk) hj

lemma flatMap_replicate_segment (steps : Nat) (d : α) :
    ∀ (xs : List α) (i : Nat), i < xs.length →
      ((xs.flatMap (List.replicate steps)).drop (i * steps)).take steps =
        List.replicate steps (xs.getD i d) := by
  intro xs
  induction xs with
  | nil => intro i hi; simp at hi
  | cons x t ih =>
    intro i hi
    rw [List.flatMap_cons]
    cases i with
    | zero =>
      rw [Nat.zero_mul, List.drop_zero, List.getD_cons_zero]
      have htake := List.take_left (List.replicate steps x) (t.flatMap (List.replicate steps))
      rw [List.length_replicate] at htake
      exact htake
    | succ i =>
      have hidx : (i + 1) * steps = (List.replicate steps x).length + i * steps := by
        rw [List.length_replicate]; ring
      rw [hidx, List.drop_append, List.getD_cons_succ]
      exact ih i (by simpa using hi)

lemma vertex_color_writes_eq (cl : Field α) (rows cols steps : Nat) (d : α) :
    vertex_color_writes cl rows cols steps d =
      (flatCellColors cl rows cols d).flatMap (List.replicate steps) := by
  unfold vertex_color_writes flatCellColors
  simp only [List.flatMap_assoc, List.flatMap_map]

lemma flatCellColors_inner_length (layer : Grid α) (rows cols : Nat) (d : α) :
    ((List.range rows).flatMap fun r =>
      (List.range cols).map fun c => (layer.getD r []).getD c d).length = rows * cols := by
  have hrow : ∀ r ∈ List.range rows,
      ((List.range cols).map fun c => (layer.getD r []).getD c d).length = cols :=
    fun r _ => by simp
  rw [length_flatMap_const hrow, List.length_range]

lemma flatCellColors_length (cl : Field α) (rows cols : Nat) (d : α) :
    (flatCellColors cl rows cols d).length = cl.length * (rows * cols) := by
  unfold flatCellColors
  exact length_flatMap_const fun layer _ => flatCellColors_inner_length layer rows cols d

lemma getD_range {n i : Nat} (h : i < n) (d : Nat) : (List.range n).getD i d = i := by
  rw [List.getD_eq_getElem _ _ (by simpa using h)]
  simp

lemma flatCellColors_getD {cl : Field α} {rows cols : Nat} (d : α)
    {l r c : Nat} (hl : l < cl.length) (hr : r < rows) (hc : c < cols) :
    (flatCellColors cl rows cols d).getD ((l * rows + r) * cols + c) d =
      cellD cl l r c d := by
  have hbound : r * cols + c < rows * cols := by
    have h1 : r * cols + c < (r + 1) * cols := by
      have : (r + 1) * cols = r * cols + cols := by ring
      omega
    have h2 : (r + 1) * cols ≤ rows * cols :=
      Nat.mul_le_mul_right cols (Nat.succ_le_of_lt hr)
    omega
  have hidx : (l * rows + r) * cols + c = l * (rows * cols) + (r * cols + c) := by ring
  unfold flatCellColors
  rw [hidx, flatMap_const_getD d ([] : Grid α) cl
      (fun layer _ => flatCellColors_inner_length layer rows cols d) hl hbound,
    flatMap_const_getD d 0 (List.range rows) (fun r _ => by simp)
      (by simpa using hr) hc,
    getD_range hr 0, getD_range_map _ _ hc]
  rfl

lemma take_of_drop_append {a b : List α} {pos steps : Nat}
    (h : pos + steps ≤ a.length) :
    ((a ++ b).drop pos).take steps = (a.drop pos).take steps := by
  rw [List.drop_append_of_le_length (by omega),
    List.take_append_of_le_length (by rw [List.length_drop]; omega)]

/-- C8: Vertex color assignment.  Writing into a buffer of at least
`layers*rows*cols*steps` entries, each cell's color occupies exactly
`steps` consecutive entries at offset `((l*rows + r)*cols + c)*steps`
(layers outer, then rows, then columns); the written prefix is the
concatenation of `layers*rows*cols` constant runs of length `steps`, one
per cell in traversal order, and the rest of the buffer is unchanged in
length. -/
theorem vertex_color_assignment (buf : List α) (d : α) {cl : Field α}
    {rows cols steps : Nat}
    (hrect : rectField cl rows cols = true)
    (hbuf : cl.length * rows * cols * steps ≤ buf.length)
    {l r c : Nat} (hl : l < cl.length) (hr : r < rows) (hc : c < cols) :
    ((color_vertex_layer buf cl rows cols steps d).drop
        (((l * rows + r) * cols + c) * steps)).take steps =
      List.replicate steps (cellD cl l r c d) ∧
    (color_vertex_layer buf cl rows cols steps d).length = buf.length ∧
    (color_vertex_layer buf cl rows cols steps d).take
        (cl.length * rows * cols * steps) =
      (flatCellColors cl rows cols d).flatMap (List.replicate steps) ∧
    (flatCellColors cl rows cols d).length = cl.length * (rows * cols) := by
  have hflen : (flatCellColors cl rows cols d).length = cl.length * (rows * cols) :=
    flatCellColors_length cl rows cols d
  have hwlen : (vertex_color_writes cl rows cols steps d).length =
      cl.length * rows * cols * steps := by
    rw [vertex_color_writes_eq,
      length_flatMap_const fun x _ => List.length_replicate steps x, hflen]
    ring
  have hcell : (l * rows + r) * cols + c < cl.length * (rows * cols) := by
    have h1 : l * rows + r < cl.length * rows := by
      have h2 : (l + 1) * rows ≤ cl.length * rows :=
        Nat.mul_le_mul_right rows (Nat.succ_le_of_lt hl)
      have h3 : (l + 1) * rows = l * rows + rows := by ring
      omega
    have h4 : (l * rows + r + 1) * cols ≤ (cl.length * rows) * cols :=
      Nat.mul_le_mul_right cols (Nat.succ_le_of_lt h1)
    have h5 : (l * rows + r + 1) * cols = (l * rows + r) * cols + cols := by ring
    have h6 : (cl.length * rows) * cols = cl.length * (rows * cols) := by ring
    omega
  refine ⟨?_, ?_, ?_, hflen⟩
  · unfold color_vertex_layer
    rw [take_of_drop_append (by
        rw [hwlen]
        have h7 : ((l * rows + r) * cols + c + 1) * steps ≤
            (cl.length * (rows * cols)) * steps :=
          Nat.mul_le_mul_right steps (Nat.succ_le_of_lt hcell)
        have h8 : ((l * rows + r) * cols + c + 1) * steps =
            ((l * rows + r) * cols + c) * steps + steps := by ring
        have h9 : (cl.length * (rows * cols)) * steps =
            cl.length * rows * cols * steps := by ring
        omega)]
    rw [vertex_color_writes_eq,
      flatMap_replicate_segment steps d _ _ (by rw [hflen]; exact hcell),
      flatCellColors_getD d hl hr hc]
  · unfold color_vertex_layer
    rw [List.length_append, List.length_drop, hwlen]
    omega
  · unfold color_vertex_layer
    rw [← hwlen, List.take_left, vertex_color_writes_eq]

/-- C8 witness: one layer, one 1×1 cell, 2 steps, buffer `[9, 9]`. -/
theorem vertex_color_assignment_witness :
    ((color_vertex_layer [(9 : ℚ), 9] [[[7]]] 1 1 2 0).drop
        (((0 * 1 + 0) * 1 + 0) * 2)).take 2 =
      List.replicate 2 (cellD [[[(7 : ℚ)]]] 0 0 0 0) ∧
    (color_vertex_layer [(9 : ℚ), 9] [[[7]]] 1 1 2 0).length = [(9 : ℚ), 9].length ∧
    (color_vertex_layer [(9 : ℚ), 9] [[[7]]] 1 1 2 0).take
        ([[[(7 : ℚ)]]].length * 1 * 1 * 2) =
      (flatCellColors [[[(7 : ℚ)]]] 1 1 0).flatMap (List.replicate 2) ∧
    (flatCellColors [[[(7 : ℚ)]]] 1 1 0).length = [[[(7 : ℚ)]]].length * (1 * 1) :=
  vertex_color_assignment [(9 : ℚ), 9] 0 (by decide) (by decide)
    (by decide) (by decide) (by decide)

-- ### block geometry (cubester.py lines 182-226, claim C6)

/-- The six quad faces of one block at running vertex counter `p`
(cubester.py lines 217-220): bottom, top, and the four sides, with fixed
offsets `p .. p+7` relative to the block's first vertex. -/
def block_faces (p : Nat) : List (Nat × Nat × Nat × Nat) :=
  [(p, p + 1, p + 2, p + 3), (p + 4, p + 7, p + 6, p + 5),
    (p, p + 4, p + 5, p + 1), (p, p + 3, p + 7, p + 4),
    (p + 3, p + 2, p + 6, p + 7), (p + 1, p + 5, p + 6, p + 2)]

/-- The per-layer face loop `for _ in range(rows * cols)` (cubester.py
lines 216-222): 6 faces per block, `p` advancing by 8 per block. -/
def layer_faces : Nat → Nat → List (Nat × Nat × Nat × Nat)
  | 0, _ => []
  | n + 1, p => block_faces p ++ layer_faces n (p + 8)

/-- The vertex loop over one row (cubester.py lines 205-212): per cell,
4 corners at `z = bz * height_factor` then 4 corners at
`z = (bz + height) * height_factor`, with `x += xy + spacing` per cell. -/
def row_verts (hf xy spacing : ℚ) : ℚ → ℚ → List (ℚ × ℚ) → List (ℚ × ℚ × ℚ)
  | _, _, [] => []
  | x, y, (bz, h) :: rest =>
      [(x, y, bz * hf), (x, y + xy, bz * hf),
        (x + xy, y + xy, bz * hf), (x + xy, y, bz * hf),
        (x, y, (bz + h) * hf), (x, y + xy, (bz + h) * hf),
        (x + xy, y + xy, (bz + h) * hf), (x + xy, y, (bz + h) * hf)] ++
      row_verts hf xy spacing (x + xy + spacing) y rest

/-- The vertex loop over one layer's rows (cubester.py lines 201-213):
`x` restarts at `sx` per row, `y += xy + spacing` per row. -/
def layer_verts (hf xy spacing sx : ℚ) : ℚ → Grid (ℚ × ℚ) → List (ℚ × ℚ × ℚ)
  | _, [] => []
  | y, row :: rest =>
      row_verts hf xy spacing sx y row ++
        layer_verts hf xy spacing sx (y + xy + spacing) rest

/-- The outer layer loop (cubester.py lines 199-222): per layer, `y`
restarts at `sy`, the layer's vertices are emitted, then `rows * cols`
blocks of faces, after which the counter `p` has advanced by
`8 * rows * cols`. -/
def geom_layers (hf xy spacing sx sy : ℚ) (rows cols : Nat) :
    Nat → Field (ℚ × ℚ) → List (ℚ × ℚ × ℚ) × List (Nat × Nat × Nat × Nat)
  | _, [] => ([], [])
  | p, layer :: rest =>
      (layer_verts hf xy spacing sx sy layer ++
          (geom_layers hf xy spacing sx sy rows cols (p + 8 * (rows * cols)) rest).1,
        layer_faces (rows * cols) p ++
          (geom_layers hf xy spacing sx sy rows cols (p + 8 * (rows * cols)) rest).2)

/-- `create_block_geometry` (cubester.py lines 182-226):
`sx = -((cols*xy) + ((cols-1)*spacing))/2`, symmetric `sy` for rows, then
the layer loop with the running counter starting at 0. -/
def create_block_geometry (f : Field (ℚ × ℚ)) (height_factor xy spacing : ℚ)
    (dims : Nat × Nat) : List (ℚ × ℚ × ℚ) × List (Nat × Nat × Nat × Nat) :=
  geom_layers height_factor xy spacing
    (-(((dims.2 : ℚ) * xy) + ((dims.2 : ℚ) - 1) * spacing) / 2)
    (-(((dims.1 : ℚ) * xy) + ((dims.1 : ℚ) - 1) * spacing) / 2)
    dims.1 dims.2 0 f

/-- A face is well-formed for the index window `[lo, hi)`: all four vertex
indices lie in the window and are pairwise distinct. -/
def faceOk (lo hi : Nat) (q : Nat × Nat × Nat × Nat) : Prop :=
  lo ≤ q.1 ∧ lo ≤ q.2.1 ∧ lo ≤ q.2.2.1 ∧ lo ≤ q.2.2.2 ∧
  q.1 < hi ∧ q.2.1 < hi ∧ q.2.2.1 < hi ∧ q.2.2.2 < hi ∧
  q.1 ≠ q.2.1 ∧ q.1 ≠ q.2.2.1 ∧ q.1 ≠ q.2.2.2 ∧
  q.2.1 ≠ q.2.2.1 ∧ q.2.1 ≠ q.2.2.2 ∧ q.2.2.1 ≠ q.2.2.2

lemma faceOk_mono {lo hi lo' hi' : Nat} {q : Nat × Nat × Nat × Nat}
    (h1 : lo' ≤ lo) (h2 : hi ≤ hi') (h : faceOk lo hi q) : faceOk lo' hi' q := by
  unfold faceOk at h ⊢
  omega

lemma block_faces_ok {p lo hi : Nat} (hlo : lo ≤ p) (hhi : p + 8 ≤ hi) :
    ∀ q ∈ block_faces p, faceOk lo hi q := by
  intro q hq
  simp only [block_faces, List.mem_cons, List.mem_singleton, List.not_mem_nil,
    or_false] at hq
  rcases hq with rfl | rfl | rfl | rfl | rfl | rfl <;>
    (unfold faceOk; dsimp only; omega)

lemma layer_faces_length : ∀ (n p : Nat), (layer_faces n p).length = 6 * n := by
  intro n
  induction n with
  | zero => intro p; rfl
  | succ n ih =>
    intro p
    rw [layer_faces, List.length_append, ih,
      show (block_faces p).length = 6 from rfl]
    ring

lemma layer_faces_ok : ∀ (n p lo hi : Nat), lo ≤ p → p + 8 * n ≤ hi →
    ∀ q ∈ layer_faces n p, faceOk lo hi q := by
  intro n
  induction n with
  | zero => intro p lo hi _ _ q hq; simp [layer_faces] at hq
  | succ n ih =>
    intro p lo hi hlo hhi q hq
    rw [layer_faces] at hq
    rcases List.mem_append.mp hq with h1 | h2
    · exact block_faces_ok hlo (by omega) q h1
    · exact ih (p + 8) lo hi (by omega) (by omega) q h2

lemma geom_layers_faces_length (hf xy spacing sx sy : ℚ) (rows cols : Nat) :
    ∀ (f : Field (ℚ × ℚ)) (p : Nat),
      (geom_layers hf xy spacing sx sy rows cols p f).2.length =
        6 * (rows * cols) * f.length := by
  intro f
  induction f with
  | nil => intro p; simp [geom_layers]
  | cons layer rest ih =>
    intro p
    rw [geom_layers, List.length_append, layer_faces_length, ih, List.length_cons]
    ring

lemma geom_layers_faces_ok (hf xy spacing sx sy : ℚ) (rows cols : Nat) :
    ∀ (f : Field (ℚ × ℚ)) (p : Nat),
      ∀ q ∈ (geom_layers hf xy spacing sx sy rows cols p f).2,
        faceOk p (p + 8 * (rows * cols) * f.length) q := by
  intro f
  induction f with
  | nil => intro p q hq; simp [geom_layers] at hq
  | cons layer rest ih =>
    intro p q hq
    rw [geom_layers] at hq
    simp only [List.length_cons]
    rcases List.mem_append.mp hq with h1 | h2
    · have hk := layer_faces_ok (rows * cols) p p (p + 8 * (rows * cols))
        (le_refl p) (le_refl _) q h1
      have hle : p + 8 * (rows * cols) ≤ p + 8 * (rows * cols) * (rest.length + 1) := by
        have h3 : 8 * (rows * cols) ≤ 8 * (rows * cols) * (rest.length + 1) :=
          Nat.le_mul_of_pos_right _ (by omega)
        omega
      exact faceOk_mono (le_refl p) hle hk
    · have hk := ih (p + 8 * (rows * cols)) q h2
      have heq : p + 8 * (rows * cols) * (rest.length + 1) =
          p + 8 * (rows * cols) + 8 * (rows * cols) * rest.length := by ring
      exact faceOk_mono (Nat.le_add_right p _) (le_of_eq heq.symm) hk

lemma row_verts_length (hf xy spacing : ℚ) :
    ∀ (row : List (ℚ × ℚ)) (x y : ℚ),
      (row_verts hf xy spacing x y row).length = 8 * row.length := by
  intro row
  induction row with
  | nil => intro x y; rfl
  | cons cell rest ih =>
    intro x y
    obtain ⟨bz, h⟩ := cell
    rw [row_verts, List.length_append, ih]
    show (8 : Nat) + 8 * rest.length = 8 * ((bz, h) :: rest).length
    rw [List.length_cons]
    ring

lemma layer_verts_length (hf xy spacing sx : ℚ) {C : Nat} :
    ∀ (layer : Grid (ℚ × ℚ)) (y : ℚ), (∀ row ∈ layer, row.length = C) →
      (layer_verts hf xy spacing sx y layer).length = 8 * (layer.length * C) := by
  intro layer
  induction layer with
  | nil => intro y _; simp [layer_verts]
  | cons row rest ih =>
    intro y hrow
    rw [layer_verts, List.length_append, row_verts_length,
      hrow row (List.mem_cons_self row rest),
      ih _ fun r hr => hrow r (List.mem_cons_of_mem _ hr), List.length_cons]
    ring

lemma geom_layers_verts_length (hf xy spacing sx sy : ℚ) {rows cols : Nat} :
    ∀ (f : Field (ℚ × ℚ)) (p : Nat), (∀ layer ∈ f, rectGrid layer rows cols = true) →
      (geom_layers hf xy spacing sx sy rows cols p f).1.length =
        8 * (rows * cols) * f.length := by
  intro f
  induction f with
  | nil => intro p _; simp [geom_layers]
  | cons layer rest ih =>
    intro p hlayer
    have hg := hlayer layer (List.mem_cons_self layer rest)
    rw [geom_layers, List.length_append,
      layer_verts_length hf xy spacing sx layer sy
        (fun row hr => rectGrid_row_length hg hr),
      rectGrid_length hg,
      ih _ fun g hg2 => hlayer g (List.mem_cons_of_mem _ hg2), List.length_cons]
    ring

/-- C6: Block geometry counts and index validity.  For a rectangular field
of `L` layers of `R × C` cells and `dims = (R, C)`, `create_block_geometry`
emits `8·L·R·C` vertices and `6·L·R·C` faces, and every face is a 4-tuple
of pairwise distinct vertex indices, each strictly below the vertex
count. -/
theorem block_geometry_counts {f : Field (ℚ × ℚ)} {R C : Nat}
    (height_factor xy spacing : ℚ)
    (hrect : rectField f R C = true) {i : Nat}
    (hi : i < (create_block_geometry f height_factor xy spacing (R, C)).2.length) :
    (create_block_geometry f height_factor xy spacing (R, C)).1.length =
      8 * f.length * R * C ∧
    (create_block_geometry f height_factor xy spacing (R, C)).2.length =
      6 * f.length * R * C ∧
    faceOk 0 ((create_block_geometry f height_factor xy spacing (R, C)).1.length)
      ((create_block_geometry f height_factor xy spacing (R, C)).2.getD i (0, 0, 0, 0)) := by
  have hlayers : ∀ layer ∈ f, rectGrid layer R C = true := List.all_eq_true.mp hrect
  have hv : (create_block_geometry f height_factor xy spacing (R, C)).1.length =
      8 * (R * C) * f.length := by
    unfold create_block_geometry
    exact geom_layers_verts_length _ _ _ _ _ f 0 hlayers
  have hfc : (create_block_geometry f height_factor xy spacing (R, C)).2.length =
      6 * (R * C) * f.length := by
    unfold create_block_geometry
    exact geom_layers_faces_length _ _ _ _ _ R C f 0
  refine ⟨by rw [hv]; ring, by rw [hfc]; ring, ?_⟩
  have hmem := getD_mem_of_lt hi ((0, 0, 0, 0) : Nat × Nat × Nat × Nat)
  have hok := geom_layers_faces_ok height_factor xy spacing
    (-(((C : ℚ) * xy) + ((C : ℚ) - 1) * spacing) / 2)
    (-(((R : ℚ) * xy) + ((R : ℚ) - 1) * spacing) / 2) R C f 0 _ hmem
  rw [hv]
  exact faceOk_mono (le_refl 0) (by omega) hok

/-- C6 witness: one layer, one 1×1 cell. -/
theorem block_geometry_counts_witness :
    (create_block_geometry [[[((0 : ℚ), 1)]]] 1 1 0 (1, 1)).1.length =
      8 * [[[((0 : ℚ), 1)]]].length * 1 * 1 ∧
    (create_block_geometry [[[((0 : ℚ), 1)]]] 1 1 0 (1, 1)).2.length =
      6 * [[[((0 : ℚ), 1)]]].length * 1 * 1 ∧
    faceOk 0 ((create_block_geometry [[[((0 : ℚ), 1)]]] 1 1 0 (1, 1)).1.length)
      ((create_block_geometry [[[((0 : ℚ), 1)]]] 1 1 0 (1, 1)).2.getD 0 (0, 0, 0, 0)) :=
  block_geometry_counts 1 1 0 (by decide) (by decide)

end CubeSter
